import Mathlib

/-! Spell-Checker (Project.c): trie, suggestion engine, misspelling queue and
sentence checks

A shallow embedding of `src/Project.c`.

* A C `char` value is an `Int` (the value after integer promotion, so the model
  covers both a signed and an unsigned `char`).
* A C string is the list of its bytes before the terminating NUL.
* A pointer is an `Option`: `none` is `NULL`.
* `malloc` is assumed to succeed (the `exit(1)` paths are not modelled).
* Undefined behaviour (a write past a fixed buffer, a dangling pointer) makes an
  operation return `none`.
* Printed output is the list of the lines printed, in order.
-/

namespace SpellChecker

/-- The constant `MAX_WORD_LENGTH` (Project.c line 6). -/
def MAX_WORD_LENGTH : Nat := 45

/-- A C string: the bytes before the terminating NUL. -/
abbrev Word := List Int

/-! ## Trie (Project.c lines 11-15, 59-117) -/

/-- The struct `TrieNode`: an array of 26 child pointers and the end-of-word flag. -/
inductive TrieNode where
  | mk (children : Fin 26 → Option TrieNode) (is_end_of_word : Bool) : TrieNode

/-- The field `children`. -/
def TrieNode.children : TrieNode → Fin 26 → Option TrieNode
  | .mk ch _ => ch

/-- The field `is_end_of_word`. -/
def TrieNode.is_end_of_word : TrieNode → Bool
  | .mk _ e => e

/-- The function `create_trienode`: every child `NULL`, flag 0. -/
def create_trienode : TrieNode :=
  .mk (fun _ => none) false

/-- The C library `tolower` in the "C" locale. -/
def tolower (c : Int) : Int :=
  if 65 ≤ c ∧ c ≤ 90 then c + 32 else c

/-- The expression `tolower(*word) - 'a'` (lines 81 and 103). -/
def char_index (c : Int) : Int :=
  tolower c - 97

/-- The guard `index < 0 || index >= 26` (lines 82 and 104): `none` when the
character is skipped, otherwise the array index that is accessed. -/
def child_slot (c : Int) : Option (Fin 26) :=
  if h : char_index c < 0 ∨ char_index c ≥ 26 then none
  else some ⟨(char_index c).toNat, by omega⟩

/-- The assignment `children[i] = v` on an array of 26 pointers. -/
def set_child (ch : Fin 26 → Option TrieNode) (i : Fin 26) (v : Option TrieNode) :
    Fin 26 → Option TrieNode :=
  fun j => if j = i then v else ch j

/-- The function `insert_word_in_trie` (lines 76-95); the trie after the call. -/
def insert_word_in_trie : TrieNode → Word → TrieNode
  | node, [] => .mk node.children true
  | node, c :: word =>
    match child_slot c with
    | none => insert_word_in_trie node word
    | some index =>
      let child :=
        match node.children index with
        | none => create_trienode
        | some n => n
      .mk (set_child node.children index (some (insert_word_in_trie child word)))
        node.is_end_of_word

/-- The function `search_in_trie` (lines 98-117). -/
def search_in_trie : TrieNode → Word → Bool
  | node, [] => node.is_end_of_word
  | node, c :: word =>
    match child_slot c with
    | none => search_in_trie node word
    | some index =>
      match node.children index with
      | none => false
      | some child => search_in_trie child word

/-- The loop of `load_dictionary` (lines 129-132) over the words read from the file. -/
def load_dictionary (root : TrieNode) (words : List Word) : TrieNode :=
  words.foldl insert_word_in_trie root

/-! ## Suggestion engine (Project.c lines 203-223) -/

/-- The body of the inner loop (lines 214-220) for position `i` and letter `c`:
the buffer holds the word with byte `i` replaced by `c`; it is printed when it is
found in the trie and `strcmp` says it differs from the word. -/
def suggest_step (root : TrieNode) (misspelled_word : Word) (len i : Nat) (c : Int)
    (out : List Word) : List Word :=
  let buffer := (misspelled_word.take len).set i c
  if search_in_trie root buffer && buffer != misspelled_word then out ++ [buffer] else out

/-- The inner loop `for (char c = 'a'; c <= 'z'; c++)` (line 212). -/
def suggest_inner (root : TrieNode) (misspelled_word : Word) (len i : Nat)
    (out : List Word) : List Word :=
  (List.range 26).foldl
    (fun acc (k : Nat) => suggest_step root misspelled_word len i (97 + (k : Int)) acc) out

/-- The function `suggest_corrections` (lines 203-223): the candidates printed, in
order. The buffer has `MAX_WORD_LENGTH` bytes, so a non-empty word of 45 bytes or
more overruns it (`none`). -/
def suggest_corrections (root : TrieNode) (misspelled_word : Word) : Option (List Word) :=
  let len := misspelled_word.length
  if len ≥ MAX_WORD_LENGTH then none
  else some ((List.range len).foldl
    (fun acc i => suggest_inner root misspelled_word len i acc) [])

/-- The specification's enumeration of candidates: positions `0..L-1` ascending,
within a position the letters `'a'..'z'` ascending, the candidate being the word
with that position replaced; kept when the trie contains it and it is not
byte-for-byte the word. -/
def reference_suggestions (root : TrieNode) (w : Word) : List Word :=
  (List.range w.length).flatMap fun i =>
    ((List.range 26).map fun (k : Nat) => w.set i (97 + (k : Int))).filter
      fun cand => search_in_trie root cand && decide (cand ≠ w)

/-- The number of positions at which two words differ (over their common length). -/
def differing_positions : Word → Word → Nat
  | a :: as, b :: bs => (if a = b then 0 else 1) + differing_positions as bs
  | _, _ => 0

/-- A word made only of the lowercase letters `'a'..'z'`. -/
def lowercase_only (w : Word) : Bool :=
  w.all fun c => decide (97 ≤ c) && decide (c ≤ 122)

/-- An ASCII letter, `'A'..'Z'` or `'a'..'z'`. -/
def is_letter (c : Int) : Bool :=
  (decide (65 ≤ c) && decide (c ≤ 90)) || (decide (97 ≤ c) && decide (c ≤ 122))

/-- The branch indices a word walks through: its letters, case-folded. -/
def letter_path (w : Word) : List (Fin 26) :=
  w.filterMap child_slot

/-- Insertion along a sequence of branch indices. -/
def insert_path : TrieNode → List (Fin 26) → TrieNode
  | node, [] => .mk node.children true
  | node, i :: p =>
    let child :=
      match node.children i with
      | none => create_trienode
      | some n => n
    .mk (set_child node.children i (some (insert_path child p))) node.is_end_of_word

/-- Lookup along a sequence of branch indices. -/
def search_path : TrieNode → List (Fin 26) → Bool
  | node, [] => node.is_end_of_word
  | node, i :: p =>
    match node.children i with
    | none => false
    | some child => search_path child p

/-! ## Misspelling queue (Project.c lines 24-36, 161-200) -/

/-- The struct `QueueNode`: the stored word and the `next` pointer. -/
structure QueueNode where
  word : Word
  next : Option Nat

/-- The allocated queue nodes, by address. -/
abbrev Heap := List (Nat × QueueNode)

/-- The node stored at an address, `none` when nothing is allocated there. -/
def heap_read (h : Heap) (a : Nat) : Option QueueNode :=
  (h.find? fun p => p.1 == a).map Prod.snd

/-- Store a node at an address. -/
def heap_write (h : Heap) (a : Nat) (n : QueueNode) : Heap :=
  (a, n) :: h.filter fun p => p.1 != a

/-- The call `free(temp)`. -/
def heap_free (h : Heap) (a : Nat) : Heap :=
  h.filter fun p => p.1 != a

/-- The address `malloc` returns: one that is not allocated (freed addresses are
used again). -/
def malloc (h : Heap) : Nat :=
  (h.map Prod.fst).foldr max 0 + 1

/-- The struct `Queue` (`front`, `rear`) together with the memory its nodes live in. -/
structure QueueState where
  heap : Heap
  front : Option Nat
  rear : Option Nat

/-- The initialiser `Queue word_queue = {NULL, NULL}` (line 515). -/
def empty_queue : QueueState :=
  { heap := [], front := none, rear := none }

/-- The function `enqueue` (lines 161-180). `strcpy` into the 45-byte field of the
node overruns it when the word has 45 bytes or more (`none`). -/
def enqueue (queue : QueueState) (word : Word) : Option QueueState :=
  if word.length ≥ MAX_WORD_LENGTH then none
  else
    let new_node := malloc queue.heap
    let heap := heap_write queue.heap new_node { word := word, next := none }
    match queue.rear with
    | none => some { heap := heap, front := some new_node, rear := some new_node }
    | some rear =>
      match heap_read heap rear with
      | none => none
      | some r =>
        some { heap := heap_write heap rear { r with next := some new_node },
               front := queue.front, rear := some new_node }

/-- The function `dequeue` (lines 183-200): the returned string (`none` is `NULL`)
and the queue after the call. -/
def dequeue (queue : QueueState) : Option (Option Word × QueueState) :=
  match queue.front with
  | none => some (none, queue)
  | some temp =>
    match heap_read queue.heap temp with
    | none => none
    | some t =>
      let rear :=
        match t.next with
        | none => none
        | some _ => queue.rear
      some (some t.word, { heap := heap_free queue.heap temp, front := t.next, rear := rear })

/-- Enqueue the words of a list, in order. -/
def enqueue_all : QueueState → List Word → Option QueueState
  | queue, [] => some queue
  | queue, w :: ws =>
    match enqueue queue w with
    | none => none
    | some queue1 => enqueue_all queue1 ws

/-- Call `dequeue` a number of times, collecting what it returns. -/
def dequeue_times : QueueState → Nat → Option (List (Option Word) × QueueState)
  | queue, 0 => some ([], queue)
  | queue, n + 1 =>
    match dequeue queue with
    | none => none
    | some (r, queue1) =>
      match dequeue_times queue1 n with
      | none => none
      | some (rs, queue2) => some (r :: rs, queue2)

/-- The addresses `as` form a singly linked chain in the heap holding the words `ws`. -/
def Linked (h : Heap) : List Nat → List Word → Prop
  | [], [] => True
  | a :: as, w :: ws => heap_read h a = some { word := w, next := as.head? } ∧ Linked h as ws
  | _, _ => False

/-- The queue state holds exactly the words `ws`, oldest first. -/
def Holds (q : QueueState) (ws : List Word) : Prop :=
  ∃ as : List Nat, as.Nodup ∧ Linked q.heap as ws ∧ q.front = as.head? ∧ q.rear = as.getLast?

/-! ## Further definitions for the trie and the suggestion engine -/

/-- The constant `SUGGESTION_LIMIT` (Project.c line 8). -/
def SUGGESTION_LIMIT : Nat := 5

/-- The normalised form of a word: the non-letters deleted, the letters lowercased. -/
def normalise (w : Word) : Word :=
  (w.filter is_letter).map tolower

/-- The lowercase letter of a branch index. -/
def letter_of (i : Fin 26) : Int :=
  97 + (i.val : Int)

/-! ## Interleaved queue operations -/

/-- One operation on the queue: `enqueue(queue, word)` or `dequeue(queue)`. -/
inductive QueueOp where
  | enq (word : Word) : QueueOp
  | deq : QueueOp

/-- Run a sequence of operations on the linked queue, collecting what each
`dequeue` returns. -/
def run_ops : QueueState → List QueueOp → Option (List (Option Word) × QueueState)
  | queue, [] => some ([], queue)
  | queue, QueueOp.enq w :: ops =>
    match enqueue queue w with
    | none => none
    | some queue1 => run_ops queue1 ops
  | queue, QueueOp.deq :: ops =>
    match dequeue queue with
    | none => none
    | some (r, queue1) =>
      match run_ops queue1 ops with
      | none => none
      | some (rs, queue2) => some (r :: rs, queue2)

/-- The reference FIFO on a list: an enqueue appends at the end, a dequeue removes
and returns the oldest word, or returns `NULL` and leaves the empty list as it is. -/
def fifo_run : List Word → List QueueOp → List (Option Word) × List Word
  | l, [] => ([], l)
  | l, QueueOp.enq w :: ops => fifo_run (l ++ [w]) ops
  | l, QueueOp.deq :: ops =>
    match l with
    | [] => (none :: (fifo_run [] ops).1, (fifo_run [] ops).2)
    | w :: l1 => (some w :: (fifo_run l1 ops).1, (fifo_run l1 ops).2)

/-- The words a sequence of operations enqueues. -/
def enqueued_words : List QueueOp → List Word
  | [] => []
  | QueueOp.enq w :: ops => w :: enqueued_words ops
  | QueueOp.deq :: ops => enqueued_words ops

/-! ## Sentence checks (Project.c lines 282-453) -/

/-- The tokens that successive calls `strtok(.., " ")` return: the maximal runs of
bytes other than the space; `cur` is the token being read. -/
def strtok_from : Word → Word → List Word
  | cur, [] => if cur = [] then [] else [cur]
  | cur, c :: s =>
    if c = 32 then
      if cur = [] then strtok_from [] s else cur :: strtok_from [] s
    else strtok_from (cur ++ [c]) s

/-- The tokens of a string, in order. -/
def strtok_words (s : Word) : List Word :=
  strtok_from [] s

/-- The string that starts at the beginning of a buffer once `strtok` has gone
over it: `strtok` writes NUL over the space that ends the first token, so what is
left is the leading spaces and the first token. -/
def after_strtok (s : Word) : Word :=
  s.takeWhile (fun c => decide (c = 32))
    ++ (s.dropWhile (fun c => decide (c = 32))).takeWhile (fun c => decide (c ≠ 32))

/-- The expression `word[0]`: the first byte, the terminating NUL for the empty string. -/
def first_char (word : Word) : Int :=
  word.headD 0

/-- The C library `islower` in the "C" locale. -/
def islower (c : Int) : Bool :=
  decide (97 ≤ c) && decide (c ≤ 122)

/-- The C library `toupper` in the "C" locale. -/
def toupper (c : Int) : Int :=
  if 97 ≤ c ∧ c ≤ 122 then c - 32 else c

/-- The test `strchr("aeiou", c) != NULL`; `strchr` also finds the terminating NUL. -/
def strchr_aeiou (c : Int) : Bool :=
  decide (c ∈ [97, 101, 105, 111, 117, 0])

/-- The lines the sentence checks print. -/
inductive Message where
  | misspelled (word : Word) : Message
  | exceeds_word_limit : Message
  | empty_sentence : Message
  | start_with_capital : Message
  | use_an (word : Word) : Message
  | use_a (word : Word) : Message
  | use_is (word : Word) : Message
  | end_with_period : Message
  | sentence_correct : Message
  deriving DecidableEq

/-- The body of the article loop (lines 313-320) for `words[i]` and `words[i + 1]`. -/
def article_message (word next : Word) : List Message :=
  if word = [97] ∧ strchr_aeiou (tolower (first_char next)) = true then
    [Message.use_an next]
  else if word = [97, 110] ∧ strchr_aeiou (tolower (first_char next)) = false then
    [Message.use_a next]
  else []

/-- The body of the subject-verb loop (lines 326-332): "he", "she", "it" before "are". -/
def agreement_message (word next : Word) : List Message :=
  if word = [104, 101] ∨ word = [115, 104, 101] ∨ word = [105, 116] then
    if next = [97, 114, 101] then [Message.use_is next] else []
  else []

/-- The function `check_basic_grammar` (lines 282-343): the lines printed and the
value returned. A sentence of 256 bytes or more overruns the local buffer (`none`). -/
def check_basic_grammar (sentence : Word) : Option (List Message × Int) :=
  if sentence.length ≥ 256 then none
  else
    let words := (strtok_words sentence).take 20
    let word_count := words.length
    if word_count = 0 then some ([Message.empty_sentence], 0)
    else
      let capital :=
        if islower (first_char (words.getD 0 [])) then [Message.start_with_capital] else []
      let articles := (List.range (word_count - 1)).flatMap fun i =>
        article_message (words.getD i []) (words.getD (i + 1) [])
      let agreement := (List.range (word_count - 1)).flatMap fun i =>
        agreement_message (words.getD i []) (words.getD (i + 1) [])
      let period :=
        if (words.getD (word_count - 1) []).getLast? = some 46 then []
        else [Message.end_with_period]
      some (capital ++ articles ++ agreement ++ period, 1)

/-- What `check_sentence` does: the lines printed, and the string handed to
`check_basic_grammar` (`none` when the grammar layer is not called). -/
structure SentenceReport where
  output : List Message
  grammar_argument : Option Word
  deriving DecidableEq

/-- The loop of `check_sentence` (lines 359-368) over the tokens it visits: the
flag `correct` and the lines printed. -/
def check_words (root : TrieNode) (words : List Word) : Bool × List Message :=
  words.foldl
    (fun (st : Bool × List Message) (word : Word) =>
      if search_in_trie root word then st else (false, st.2 ++ [Message.misspelled word]))
    (true, [])

/-- The function `check_sentence` (lines 346-381) on the line read (at most 255 bytes,
newline removed). The loop stops after 20 tokens, so `word_count` never exceeds 20. -/
def check_sentence (root : TrieNode) (sentence : Word) : Option SentenceReport :=
  let words := (strtok_words sentence).take 20
  let st := check_words root words
  let word_count := words.length
  if word_count > 20 then
    some { output := st.2 ++ [Message.exceeds_word_limit], grammar_argument := none }
  else if st.1 then
    match check_basic_grammar (after_strtok sentence) with
    | none => none
    | some (msgs, r) =>
      some { output := st.2 ++ msgs ++ (if r ≠ 0 then [Message.sentence_correct] else []),
             grammar_argument := some (after_strtok sentence) }
  else some { output := st.2, grammar_argument := none }

/-- The function `starts_with_vowel` (lines 384-389). -/
def starts_with_vowel (word : Word) : Bool :=
  decide (tolower (first_char word) ∈ [97, 101, 105, 111, 117])

/-- The string literal "corrected_word" (line 421). -/
def corrected_word : Word :=
  [99, 111, 114, 114, 101, 99, 116, 101, 100, 95, 119, 111, 114, 100]

/-- The body of the loop of `correct_sentence` (lines 416-439) for `words[i]`: the
word that is appended; `next` is `words[i + 1]` when `i + 1 < word_count`. -/
def correct_word (root : TrieNode) (i : Nat) (word : Word) (next : Option Word) : Word :=
  let w1 := if search_in_trie root word then word else corrected_word
  let w2 := if i = 0 ∧ islower (first_char w1) = true then w1.set 0 (toupper (first_char w1))
    else w1
  if w2 = [97] ∧ next.map starts_with_vowel = some true then [97, 110]
  else if w2 = [97, 110] ∧ next.map starts_with_vowel = some false then [97]
  else w2

/-- The call `strcat(corrected_sentence, src)` on the 500-byte buffer: `none` when
the result and its NUL do not fit. -/
def strcat_500 (dest src : Word) : Option Word :=
  if dest.length + src.length + 1 > 500 then none else some (dest ++ src)

/-- The loop of `correct_sentence` (lines 414-443): the content of
`corrected_sentence` after it, every word followed by a space. -/
def build_corrected (root : TrieNode) (words : List Word) : Option Word :=
  (List.range words.length).foldl
    (fun (acc : Option Word) (i : Nat) =>
      match acc with
      | none => none
      | some cs =>
        match strcat_500 cs (correct_word root i (words.getD i []) (words.get? (i + 1))) with
        | none => none
        | some cs1 => strcat_500 cs1 [32])
    (some [])

/-- The largest value of `size_t`, taken 64 bits wide. -/
def SIZE_MAX : Nat := 2 ^ 64 - 1

/-- The expression `strlen(s) - 1` in `size_t` arithmetic. -/
def strlen_minus_one (s : Word) : Nat :=
  (s.length + SIZE_MAX) % (SIZE_MAX + 1)

/-- The content of `corrected_sentence` when line 446 is reached, for the line read
(at most 499 bytes, newline removed); `none` when a token overruns its 45-byte slot
or the sentence buffer is overrun before. -/
def corrected_before_trim (root : TrieNode) (sentence : Word) : Option Word :=
  let words := (strtok_words sentence).take 20
  if words.any (fun t => decide (t.length ≥ MAX_WORD_LENGTH)) then none
  else build_corrected root words

/-- The index at which line 446 writes the NUL. -/
def trailing_space_index (root : TrieNode) (sentence : Word) : Option Nat :=
  (corrected_before_trim root sentence).map strlen_minus_one

/-- The function `correct_sentence` (lines 392-453): the corrected sentence printed;
`none` when a write or read falls outside the 500-byte buffer. -/
def correct_sentence (root : TrieNode) (sentence : Word) : Option Word :=
  match corrected_before_trim root sentence with
  | none => none
  | some cs =>
    if strlen_minus_one cs ≥ 500 then none
    else
      let cs1 := cs.take (strlen_minus_one cs)
      if strlen_minus_one cs1 ≥ 500 then none
      else if cs1.getD (strlen_minus_one cs1) 0 ≠ 46 then strcat_500 cs1 [46]
      else some cs1

/-- The sentence of 21 words "a a ... a zz": twenty times "a", then "zz". -/
def twenty_one_words : Word :=
  (List.replicate 20 [97, 32]).flatten ++ [122, 122]

/-! ## Helper lemmas: the trie -/

theorem insert_eq_insert_path (t : TrieNode) (w : Word) :
    insert_word_in_trie t w = insert_path t (letter_path w) := by
  induction w generalizing t with
  | nil => rfl
  | cons c w ih =>
    cases h : child_slot c with
    | none => simp [insert_word_in_trie, letter_path, h, ih]
    | some i => simp [insert_word_in_trie, letter_path, insert_path, h, ih]

theorem search_eq_search_path (t : TrieNode) (w : Word) :
    search_in_trie t w = search_path t (letter_path w) := by
  induction w generalizing t with
  | nil => rfl
  | cons c w ih =>
    cases h : child_slot c with
    | none => simp [search_in_trie, letter_path, h, ih]
    | some i =>
      cases hc : t.children i <;>
        simp [search_in_trie, letter_path, search_path, h, hc, ih]

theorem search_path_create (p : List (Fin 26)) : search_path create_trienode p = false := by
  cases p <;> rfl

theorem children_mk (ch : Fin 26 → Option TrieNode) (e : Bool) :
    (TrieNode.mk ch e).children = ch := rfl

theorem is_end_mk (ch : Fin 26 → Option TrieNode) (e : Bool) :
    (TrieNode.mk ch e).is_end_of_word = e := rfl

theorem set_child_same (ch : Fin 26 → Option TrieNode) (i : Fin 26) (v : Option TrieNode) :
    set_child ch i v i = v := by
  simp [set_child]

theorem set_child_other (ch : Fin 26 → Option TrieNode) (i j : Fin 26) (v : Option TrieNode)
    (h : j ≠ i) : set_child ch i v j = ch j := by
  simp [set_child, h]

/-- Lookup after an insertion: what was found before, and the inserted path. -/
theorem search_path_insert_path (t : TrieNode) (p q : List (Fin 26)) :
    search_path (insert_path t p) q = (search_path t q || decide (q = p)) := by
  induction p generalizing t q with
  | nil =>
    cases q with
    | nil => simp [insert_path, search_path, is_end_mk]
    | cons j q => simp [insert_path, search_path, children_mk]
  | cons i p ih =>
    cases q with
    | nil => simp [insert_path, search_path, is_end_mk]
    | cons j q =>
      by_cases hji : j = i
      · subst hji
        cases hc : t.children j with
        | none =>
          simp [insert_path, search_path, children_mk, set_child_same, hc, ih,
            search_path_create]
        | some ch =>
          simp [insert_path, search_path, children_mk, set_child_same, hc, ih]
      · simp [insert_path, search_path, children_mk, set_child_other _ _ _ _ hji, hji]

theorem insert_path_idem (t : TrieNode) (p : List (Fin 26)) :
    insert_path (insert_path t p) p = insert_path t p := by
  induction p generalizing t with
  | nil => simp [insert_path, children_mk]
  | cons i p ih =>
    simp only [insert_path, children_mk, is_end_mk, set_child_same, TrieNode.mk.injEq,
      and_true]
    funext j
    by_cases hji : j = i
    · subst hji
      simp [set_child_same, ih]
    · simp [set_child_other _ _ _ _ hji]

theorem search_insert (t : TrieNode) (w q : Word) :
    search_in_trie (insert_word_in_trie t w) q
      = (search_in_trie t q || decide (letter_path q = letter_path w)) := by
  rw [search_eq_search_path, insert_eq_insert_path, search_path_insert_path,
    ← search_eq_search_path]

theorem search_load_of_search (ws : List Word) (t : TrieNode) (q : Word)
    (h : search_in_trie t q = true) : search_in_trie (load_dictionary t ws) q = true := by
  induction ws generalizing t with
  | nil => exact h
  | cons w ws ih =>
    exact ih (insert_word_in_trie t w) (by rw [search_insert, h]; rfl)

theorem search_load (ws : List Word) (t : TrieNode) (q : Word) :
    search_in_trie (load_dictionary t ws) q = true ↔
      search_in_trie t q = true ∨ ∃ w ∈ ws, letter_path q = letter_path w := by
  induction ws generalizing t with
  | nil => simp [load_dictionary]
  | cons w ws ih =>
    have := ih (insert_word_in_trie t w)
    simp only [load_dictionary, List.foldl_cons] at this ⊢
    rw [this, search_insert]
    simp only [Bool.or_eq_true, decide_eq_true_eq, List.mem_cons, exists_eq_or_imp]
    tauto

theorem char_index_tolower (c : Int) : char_index (tolower c) = char_index c := by
  unfold char_index tolower
  split_ifs <;> omega

theorem child_slot_tolower (c : Int) : child_slot (tolower c) = child_slot c := by
  unfold child_slot
  simp only [char_index_tolower]

theorem letter_path_map_tolower (w : Word) : letter_path (w.map tolower) = letter_path w := by
  induction w with
  | nil => rfl
  | cons c w ih =>
    simp only [letter_path, List.map_cons, List.filterMap_cons, child_slot_tolower] at ih ⊢
    rw [ih]

theorem child_slot_of_not_letter (c : Int) (h : is_letter c = false) : child_slot c = none := by
  have hc : char_index c < 0 ∨ char_index c ≥ 26 := by
    simp only [is_letter, Bool.or_eq_false_iff, Bool.and_eq_false_iff, decide_eq_false_iff_not,
      not_le] at h
    unfold char_index tolower
    split_ifs <;> omega
  simp [child_slot, hc]

theorem letter_path_filter (w : Word) :
    letter_path (w.filter is_letter) = letter_path w := by
  induction w with
  | nil => rfl
  | cons c w ih =>
    cases hl : is_letter c with
    | true =>
      simp only [letter_path, List.filter_cons, hl, if_true, List.filterMap_cons] at ih ⊢
      rw [ih]
    | false =>
      simp only [letter_path, List.filter_cons, hl, List.filterMap_cons,
        child_slot_of_not_letter c hl] at ih ⊢
      simpa using ih

/-! ## Helper lemmas: the suggestion loops -/

theorem foldl_emit {α : Type} (l : List α) (g : α → Word) (keep : Word → Bool)
    (out : List Word) :
    l.foldl (fun acc k => if keep (g k) then acc ++ [g k] else acc) out
      = out ++ (l.map g).filter keep := by
  induction l generalizing out with
  | nil => simp
  | cons k l ih =>
    simp only [List.foldl_cons, List.map_cons, List.filter_cons]
    rw [ih]
    by_cases hk : keep (g k) = true
    · simp [hk]
    · simp [hk]

theorem foldl_append_flatMap {α : Type} (l : List α) (F : α → List Word) (out : List Word) :
    l.foldl (fun acc i => acc ++ F i) out = out ++ l.flatMap F := by
  induction l generalizing out with
  | nil => simp
  | cons i l ih =>
    simp only [List.foldl_cons, List.flatMap_cons]
    rw [ih, List.append_assoc]

theorem suggest_inner_eq (root : TrieNode) (w : Word) (i : Nat) (out : List Word) :
    suggest_inner root w w.length i out
      = out ++ ((List.range 26).map fun (k : Nat) => w.set i (97 + (k : Int))).filter
          fun cand => search_in_trie root cand && decide (cand ≠ w) := by
  unfold suggest_inner suggest_step
  simp only [List.take_length]
  have h := foldl_emit (List.range 26) (fun (k : Nat) => w.set i (97 + (k : Int)))
    (fun cand => search_in_trie root cand && decide (cand ≠ w)) out
  rw [← h]
  congr 1
  funext acc k
  simp [bne_iff_ne]

theorem suggest_corrections_eq (root : TrieNode) (w : Word) (h : w.length ≤ 44) :
    suggest_corrections root w = some (reference_suggestions root w) := by
  have hlen : ¬ (w.length ≥ MAX_WORD_LENGTH) := by
    unfold MAX_WORD_LENGTH; omega
  unfold suggest_corrections reference_suggestions
  simp only [hlen, if_false]
  congr 1
  have := foldl_append_flatMap (List.range w.length)
    (fun i => ((List.range 26).map fun (k : Nat) => w.set i (97 + (k : Int))).filter
      fun cand => search_in_trie root cand && decide (cand ≠ w)) []
  rw [List.nil_append] at this
  rw [← this]
  congr 1
  funext acc i
  exact suggest_inner_eq root w i acc

theorem mem_reference_suggestions (root : TrieNode) (w d : Word) :
    d ∈ reference_suggestions root w ↔
      ∃ i : Nat, i < w.length ∧ ∃ k : Nat, k < 26 ∧ d = w.set i (97 + (k : Int)) ∧
        search_in_trie root d = true ∧ d ≠ w := by
  unfold reference_suggestions
  simp only [List.mem_flatMap, List.mem_range, List.mem_filter, List.mem_map, Bool.and_eq_true,
    decide_eq_true_eq]
  constructor
  · rintro ⟨i, hi, ⟨k, hk, rfl⟩, hs, hne⟩
    exact ⟨i, hi, k, hk, rfl, hs, hne⟩
  · rintro ⟨i, hi, k, hk, rfl, hs, hne⟩
    exact ⟨i, hi, ⟨k, hk, rfl⟩, hs, hne⟩

theorem differing_positions_self (w : Word) : differing_positions w w = 0 := by
  induction w with
  | nil => rfl
  | cons a w ih => simp [differing_positions, ih]

theorem differing_positions_set (w : Word) (i : Nat) (c : Int) (h : w.set i c ≠ w) :
    differing_positions (w.set i c) w = 1 := by
  induction w generalizing i with
  | nil => simp at h
  | cons a w ih =>
    cases i with
    | zero =>
      have hca : c ≠ a := by
        intro hca; apply h; simp [hca]
      simp [differing_positions, hca, differing_positions_self]
    | succ j =>
      have hj : w.set j c ≠ w := by
        intro hj; apply h; simp [hj]
      simp [differing_positions, ih j hj]

theorem differing_positions_zero (a b : Word) (hl : a.length = b.length)
    (h : differing_positions a b = 0) : a = b := by
  induction a generalizing b with
  | nil =>
    cases b with
    | nil => rfl
    | cons y b => simp at hl
  | cons x a ih =>
    cases b with
    | nil => simp at hl
    | cons y b =>
      simp only [List.length_cons, Nat.add_right_cancel_iff] at hl
      by_cases hxy : x = y
      · subst hxy
        simp only [differing_positions, if_true, Nat.zero_add] at h
        rw [ih b hl h]
      · simp [differing_positions, hxy] at h

theorem differing_positions_one (a b : Word) (hl : a.length = b.length)
    (h : differing_positions a b = 1) :
    ∃ i : Nat, i < b.length ∧ ∃ c : Int, c ∈ a ∧ a = b.set i c ∧ a ≠ b := by
  induction a generalizing b with
  | nil => cases b <;> simp [differing_positions] at h
  | cons x a ih =>
    cases b with
    | nil => simp at hl
    | cons y b =>
      simp only [List.length_cons, Nat.add_right_cancel_iff] at hl
      by_cases hxy : x = y
      · subst hxy
        simp only [differing_positions, if_true, Nat.zero_add] at h
        obtain ⟨i, hi, c, hc, hset, hne⟩ := ih b hl h
        refine ⟨i + 1, by simp [hi], c, List.mem_cons_of_mem _ hc, ?_, ?_⟩
        · simp only [List.set_cons_succ]
          rw [← hset]
        · intro heq
          exact hne (List.cons.inj heq).2
      · simp only [differing_positions, hxy, if_false] at h
        have h0 : differing_positions a b = 0 := by omega
        have hab := differing_positions_zero a b hl h0
        subst hab
        refine ⟨0, by simp, x, List.mem_cons_self _ _, by simp, ?_⟩
        intro heq
        exact hxy (List.cons.inj heq).1

theorem child_slot_lower (c : Int) (h1 : 97 ≤ c) (h2 : c ≤ 122) :
    ∃ i : Fin 26, child_slot c = some i ∧ (i.val : Int) = c - 97 := by
  have hc : ¬ (char_index c < 0 ∨ char_index c ≥ 26) := by
    unfold char_index tolower
    split_ifs <;> omega
  refine ⟨⟨(char_index c).toNat, by omega⟩, by simp [child_slot, hc], ?_⟩
  have : char_index c = c - 97 := by
    unfold char_index tolower
    split_ifs <;> omega
  simp only [this]
  omega

theorem letter_path_lower_inj (a b : Word) (ha : lowercase_only a = true)
    (hb : lowercase_only b = true) (h : letter_path a = letter_path b) : a = b := by
  induction a generalizing b with
  | nil =>
    cases b with
    | nil => rfl
    | cons y b =>
      simp only [lowercase_only, List.all_cons, Bool.and_eq_true, decide_eq_true_eq] at hb
      obtain ⟨j, hj, _⟩ := child_slot_lower y hb.1.1 hb.1.2
      simp [letter_path, hj] at h
  | cons x a ih =>
    simp only [lowercase_only, List.all_cons, Bool.and_eq_true, decide_eq_true_eq] at ha
    obtain ⟨i, hi, hiv⟩ := child_slot_lower x ha.1.1 ha.1.2
    cases b with
    | nil => simp [letter_path, hi] at h
    | cons y b =>
      simp only [lowercase_only, List.all_cons, Bool.and_eq_true, decide_eq_true_eq] at hb
      obtain ⟨j, hj, hjv⟩ := child_slot_lower y hb.1.1 hb.1.2
      simp only [letter_path, List.filterMap_cons, hi, hj, List.cons.injEq] at h
      have hxy : x = y := by
        have : (i.val : Int) = (j.val : Int) := by rw [h.1]
        omega
      have hab : a = b := ih b (by simpa [lowercase_only] using ha.2)
        (by simpa [lowercase_only] using hb.2) h.2
      rw [hxy, hab]

theorem lowercase_only_set (w : Word) (i : Nat) (c : Int) (hw : lowercase_only w = true)
    (h1 : 97 ≤ c) (h2 : c ≤ 122) : lowercase_only (w.set i c) = true := by
  simp only [lowercase_only, List.all_eq_true, Bool.and_eq_true, decide_eq_true_eq] at hw ⊢
  intro x hx
  rcases List.mem_or_eq_of_mem_set hx with hx | hx
  · exact hw x hx
  · subst hx; exact ⟨h1, h2⟩

/-- What a dictionary loaded into the empty trie contains. -/
theorem search_load_create (D : List Word) (q : Word) :
    search_in_trie (load_dictionary create_trienode D) q = true ↔
      ∃ w ∈ D, letter_path q = letter_path w := by
  rw [search_load, search_eq_search_path, search_path_create]
  simp

/-! ## Helper lemmas: the heap and the linked queue -/

theorem heap_read_free_same (h : Heap) (a : Nat) : heap_read (heap_free h a) a = none := by
  simp only [heap_read, heap_free, Option.map_eq_none', List.find?_eq_none, List.mem_filter]
  rintro ⟨x, n⟩ ⟨_, hx⟩
  simpa using hx

theorem heap_read_free_other (h : Heap) (a b : Nat) (hba : b ≠ a) :
    heap_read (heap_free h a) b = heap_read h b := by
  have hp : (fun p : Nat × QueueNode => decide ((p.1 != a) = true ∧ (p.1 == b) = true))
      = fun p : Nat × QueueNode => p.1 == b := by
    funext p
    by_cases hpb : p.1 = b
    · have : ¬ p.1 = a := by rw [hpb]; exact hba
      simp [hpb, hba]
    · simp [hpb]
  unfold heap_read heap_free
  rw [List.find?_filter, hp]

theorem heap_read_write_same (h : Heap) (a : Nat) (n : QueueNode) :
    heap_read (heap_write h a n) a = some n := by
  simp [heap_read, heap_write]

theorem heap_read_write_other (h : Heap) (a b : Nat) (n : QueueNode) (hba : b ≠ a) :
    heap_read (heap_write h a n) b = heap_read h b := by
  have hab : (a == b) = false := by
    simp only [beq_eq_false_iff_ne]
    exact fun e => hba e.symm
  have := heap_read_free_other h a b hba
  unfold heap_read heap_free at this
  unfold heap_read heap_write
  rw [List.find?_cons]
  simp only [hab]
  exact this

theorem key_le_malloc (h : Heap) (p : Nat × QueueNode) (hp : p ∈ h) : p.1 < malloc h := by
  unfold malloc
  induction h with
  | nil => simp at hp
  | cons x h ih =>
    simp only [List.map_cons, List.foldr_cons]
    rcases List.mem_cons.1 hp with rfl | hp
    · omega
    · have := ih hp
      omega

theorem malloc_fresh (h : Heap) : heap_read h (malloc h) = none := by
  simp only [heap_read, Option.map_eq_none', List.find?_eq_none]
  intro p hp
  have := key_le_malloc h p hp
  simp only [beq_iff_eq]
  omega

theorem linked_allocated (h : Heap) (as : List Nat) (ws : List Word) (hl : Linked h as ws)
    (x : Nat) (hx : x ∈ as) : heap_read h x ≠ none := by
  induction as generalizing ws with
  | nil => simp at hx
  | cons a as ih =>
    cases ws with
    | nil => exact hl.elim
    | cons w ws =>
      rcases List.mem_cons.1 hx with rfl | hx
      · rw [hl.1]; simp
      · exact ih ws hl.2 hx

theorem linked_write_other (h : Heap) (a : Nat) (n : QueueNode) (as : List Nat)
    (ws : List Word) (ha : a ∉ as) (hl : Linked h as ws) :
    Linked (heap_write h a n) as ws := by
  induction as generalizing ws with
  | nil => cases ws <;> exact hl
  | cons x as ih =>
    cases ws with
    | nil => exact hl.elim
    | cons w ws =>
      have hxa : x ≠ a := fun e => ha (by simp [e])
      exact ⟨by rw [heap_read_write_other h a x n hxa]; exact hl.1,
        ih ws (fun e => ha (List.mem_cons_of_mem _ e)) hl.2⟩

theorem linked_free_other (h : Heap) (a : Nat) (as : List Nat) (ws : List Word)
    (ha : a ∉ as) (hl : Linked h as ws) : Linked (heap_free h a) as ws := by
  induction as generalizing ws with
  | nil => cases ws <;> exact hl
  | cons x as ih =>
    cases ws with
    | nil => exact hl.elim
    | cons w ws =>
      have hxa : x ≠ a := fun e => ha (by simp [e])
      exact ⟨by rw [heap_read_free_other h a x hxa]; exact hl.1,
        ih ws (fun e => ha (List.mem_cons_of_mem _ e)) hl.2⟩

/-- Linking a new last node behind the old last node `r` extends the chain. -/
theorem linked_append (h : Heap) (a r : Nat) (rn : QueueNode) (w : Word) (as : List Nat)
    (ws : List Word) (hnd : as.Nodup) (ha : a ∉ as) (hl : Linked h as ws)
    (hlast : as.getLast? = some r) (hr : heap_read h r = some rn)
    (hnew : heap_read h a = some { word := w, next := none }) :
    Linked (heap_write h r { rn with next := some a }) (as ++ [a]) (ws ++ [w]) := by
  induction as generalizing ws with
  | nil => simp at hlast
  | cons x as ih =>
    cases ws with
    | nil => exact hl.elim
    | cons w0 ws =>
      have hax : a ≠ x := fun e => ha (by simp [e])
      cases as with
      | nil =>
        cases ws with
        | cons w1 ws => exact hl.2.elim
        | nil =>
          have hxr : x = r := by simpa using hlast
          subst hxr
          have hrn : rn = { word := w0, next := none } := by
            have := hl.1
            rw [hr] at this
            simpa using this
          subst hrn
          refine ⟨?_, ?_, trivial⟩
          · rw [heap_read_write_same]; rfl
          · rw [heap_read_write_other _ _ _ _ hax]; exact hnew
      | cons y as =>
        have hlast2 : (y :: as).getLast? = some r := by
          simpa [List.getLast?_cons_cons] using hlast
        have hrmem : r ∈ y :: as := List.mem_of_getLast?_eq_some hlast2
        have hxr : x ≠ r := by
          intro e
          subst e
          exact (List.nodup_cons.1 hnd).1 hrmem
        refine ⟨?_, ih ws (List.nodup_cons.1 hnd).2
          (fun e => ha (List.mem_cons_of_mem _ e)) hl.2 hlast2⟩
        rw [heap_read_write_other _ _ _ _ hxr]
        exact hl.1

theorem holds_empty : Holds empty_queue [] :=
  ⟨[], List.nodup_nil, trivial, rfl, rfl⟩

theorem holds_enqueue (q : QueueState) (ws : List Word) (w : Word) (hq : Holds q ws)
    (hw : w.length ≤ 44) : ∃ q1, enqueue q w = some q1 ∧ Holds q1 (ws ++ [w]) := by
  obtain ⟨as, hnd, hl, hfront, hrear⟩ := hq
  have hlen : ¬ (w.length ≥ MAX_WORD_LENGTH) := by
    unfold MAX_WORD_LENGTH; omega
  have hfresh : malloc q.heap ∉ as := fun hmem =>
    linked_allocated q.heap as ws hl _ hmem (malloc_fresh q.heap)
  have hl1 := linked_write_other q.heap (malloc q.heap) { word := w, next := none } as ws
    hfresh hl
  cases as with
  | nil =>
    cases ws with
    | cons w0 ws => exact hl.elim
    | nil =>
      have hr : q.rear = none := by simpa using hrear
      have he : enqueue q w = some
          { heap := heap_write q.heap (malloc q.heap) { word := w, next := none },
            front := some (malloc q.heap), rear := some (malloc q.heap) } := by
        simp only [enqueue, hlen, if_false, hr]
      refine ⟨_, he, [malloc q.heap], by simp, ?_, rfl, rfl⟩
      exact ⟨heap_read_write_same _ _ _, trivial⟩
  | cons x xs =>
    obtain ⟨r, hr⟩ : ∃ r, (x :: xs).getLast? = some r :=
      ⟨(x :: xs).getLast (by simp), List.getLast?_eq_getLast _ _⟩
    have hrear1 : q.rear = some r := by rw [hrear, hr]
    have hrmem : r ∈ x :: xs := List.mem_of_getLast?_eq_some hr
    obtain ⟨rn, hrn⟩ : ∃ rn, heap_read
        (heap_write q.heap (malloc q.heap) { word := w, next := none }) r = some rn :=
      Option.ne_none_iff_exists'.1 (linked_allocated _ _ _ hl1 r hrmem)
    have he : enqueue q w = some
        { heap := heap_write (heap_write q.heap (malloc q.heap) { word := w, next := none }) r
            { rn with next := some (malloc q.heap) },
          front := q.front, rear := some (malloc q.heap) } := by
      simp only [enqueue, hlen, if_false, hrear1, hrn]
    refine ⟨_, he, (x :: xs) ++ [malloc q.heap], ?_, ?_, ?_, ?_⟩
    · exact List.nodup_append.2 ⟨hnd, by simp, by
        intro y hy hy1
        rw [List.mem_singleton] at hy1
        subst hy1
        exact hfresh hy⟩
    · exact linked_append _ _ r rn w (x :: xs) ws hnd hfresh hl1 hr hrn
        (heap_read_write_same _ _ _)
    · simpa using hfront
    · show some (malloc q.heap) = ((x :: xs) ++ [malloc q.heap]).getLast?
      rw [List.getLast?_append]
      rfl

theorem holds_dequeue_nil (q : QueueState) (hq : Holds q []) : dequeue q = some (none, q) := by
  obtain ⟨as, _, hl, hfront, _⟩ := hq
  cases as with
  | cons x xs => exact hl.elim
  | nil =>
    have hf : q.front = none := by simpa using hfront
    simp only [dequeue, hf]

theorem holds_dequeue_cons (q : QueueState) (w : Word) (ws : List Word)
    (hq : Holds q (w :: ws)) : ∃ q1, dequeue q = some (some w, q1) ∧ Holds q1 ws := by
  obtain ⟨as, hnd, hl, hfront, hrear⟩ := hq
  cases as with
  | nil => exact hl.elim
  | cons x xs =>
    have hf : q.front = some x := by simpa using hfront
    have hx := hl.1
    have hxs : x ∉ xs := (List.nodup_cons.1 hnd).1
    have hd : dequeue q = some (some w,
        { heap := heap_free q.heap x, front := xs.head?,
          rear := match xs.head? with
            | none => none
            | some _ => q.rear }) := by
      simp only [dequeue, hf, hx]
    refine ⟨_, hd, xs, (List.nodup_cons.1 hnd).2,
      linked_free_other _ _ _ _ hxs hl.2, rfl, ?_⟩
    cases xs with
    | nil => rfl
    | cons y ys =>
      simp only [List.head?_cons]
      rw [hrear, List.getLast?_cons_cons]

theorem holds_enqueue_all (xs : List Word) (q : QueueState) (ws : List Word) (hq : Holds q ws)
    (hxs : ∀ w ∈ xs, w.length ≤ 44) :
    ∃ q1, enqueue_all q xs = some q1 ∧ Holds q1 (ws ++ xs) := by
  induction xs generalizing q ws with
  | nil => exact ⟨q, rfl, by simpa using hq⟩
  | cons x xs ih =>
    obtain ⟨q1, he, hq1⟩ := holds_enqueue q ws x hq (hxs x (List.mem_cons_self _ _))
    obtain ⟨q2, he2, hq2⟩ := ih q1 (ws ++ [x]) hq1
      (fun w hw => hxs w (List.mem_cons_of_mem _ hw))
    exact ⟨q2, by simp only [enqueue_all, he, he2], by simpa using hq2⟩

theorem holds_dequeue_times (xs : List Word) (q : QueueState) (ys : List Word)
    (hq : Holds q (xs ++ ys)) :
    ∃ q1, dequeue_times q xs.length = some (xs.map some, q1) ∧ Holds q1 ys := by
  induction xs generalizing q with
  | nil => exact ⟨q, rfl, by simpa using hq⟩
  | cons x xs ih =>
    obtain ⟨q1, hd, hq1⟩ := holds_dequeue_cons q x (xs ++ ys) hq
    obtain ⟨q2, hd2, hq2⟩ := ih q1 hq1
    exact ⟨q2, by simp only [List.length_cons, dequeue_times, hd, hd2, List.map_cons], hq2⟩

/-! ## The trie claims -/

/-- C1: starting from the empty trie of `create_trienode`, after inserting a word
`W` the search for `W` succeeds; it still succeeds after another word `W2` is
inserted, and after any further sequence `Ws` of insertions. -/
theorem inserted_word_is_found (W W2 : Word) (Ws : List Word) :
    search_in_trie (insert_word_in_trie create_trienode W) W = true ∧
    search_in_trie (insert_word_in_trie (insert_word_in_trie create_trienode W) W2) W = true ∧
    search_in_trie (load_dictionary (insert_word_in_trie create_trienode W) Ws) W = true := by
  have h : search_in_trie (insert_word_in_trie create_trienode W) W = true := by
    rw [search_insert]; simp
  refine ⟨h, ?_, search_load_of_search Ws _ W h⟩
  rw [search_insert, h]; rfl

/-- C6: in the trie returned by `create_trienode`, with nothing inserted, the search
fails for every word `W`: for every non-empty word in particular, also one made
only of non-alphabetic characters. -/
theorem search_in_created_trie (W : Word) : search_in_trie create_trienode W = false := by
  rw [search_eq_search_path, search_path_create]

/-- C7: insertion is idempotent: inserting `W` a second time leaves the trie as it
is after the first insertion (the two tries are equal), so every query `Q` gets
the same answer from both. -/
theorem insert_twice_same_trie (T : TrieNode) (W : Word) :
    insert_word_in_trie (insert_word_in_trie T W) W = insert_word_in_trie T W ∧
    ∀ Q : Word, search_in_trie (insert_word_in_trie (insert_word_in_trie T W) W) Q
      = search_in_trie (insert_word_in_trie T W) Q := by
  have h : insert_word_in_trie (insert_word_in_trie T W) W = insert_word_in_trie T W := by
    rw [insert_eq_insert_path, insert_eq_insert_path, insert_path_idem]
  exact ⟨h, fun Q => by rw [h]⟩

/-- C8: lookup is case-insensitive: searching `W` gives the same answer as searching
`W` with every uppercase letter replaced by its lowercase form, in every trie; so
"Apple" is found exactly when "apple" is. -/
theorem search_ignores_case (root : TrieNode) (W : Word) :
    search_in_trie root W = search_in_trie root (W.map tolower) ∧
    [65, 112, 112, 108, 101].map tolower = [97, 112, 112, 108, 101] ∧
    search_in_trie root [65, 112, 112, 108, 101]
      = search_in_trie root [97, 112, 112, 108, 101] := by
  have h : ∀ w : Word, search_in_trie root w = search_in_trie root (w.map tolower) := by
    intro w
    rw [search_eq_search_path, search_eq_search_path, letter_path_map_tolower]
  exact ⟨h W, by decide, h [65, 112, 112, 108, 101]⟩

/-- C9: non-alphabetic characters are skipped: when `W` and `Q` have the same
sequence of ASCII letters once every non-letter is deleted, `Q` is found after `W`
is inserted, in every trie. -/
theorem search_after_insert_same_letters (root : TrieNode) (W Q : Word)
    (h : W.filter is_letter = Q.filter is_letter) :
    search_in_trie (insert_word_in_trie root W) Q = true := by
  have hp : letter_path Q = letter_path W := by
    rw [← letter_path_filter Q, ← letter_path_filter W, h]
  rw [search_insert, hp]; simp

/-- C9, at the words "a1b" and "ab": inserting "a1b" into the empty trie makes "ab"
found. -/
theorem search_after_insert_same_letters_witness :
    [97, 49, 98].filter is_letter = [97, 98].filter is_letter ∧
    search_in_trie (insert_word_in_trie create_trienode [97, 49, 98]) [97, 98] = true :=
  ⟨by decide, search_after_insert_same_letters create_trienode [97, 49, 98] [97, 98] (by decide)⟩

/-! ## The suggestion claims -/

/-- C2: for a dictionary `D` of lowercase words loaded into the empty trie and a
lowercase query `W` of at most 44 bytes, `suggest_corrections` returns, and the
candidates it emits are exactly the words of `D` that have the length of `W` and
differ from `W` in exactly one position. For the dictionary "cat", "bat", "cot",
"cap" and the query "bot" the output is "cot" then "bat". -/
theorem suggestions_of_lowercase_dictionary (D : List Word) (W : Word)
    (hD : ∀ d ∈ D, lowercase_only d = true) (hW : lowercase_only W = true)
    (hlen : W.length ≤ 44) :
    (∃ out, suggest_corrections (load_dictionary create_trienode D) W = some out ∧
      ∀ d : Word, d ∈ out ↔ (d ∈ D ∧ d.length = W.length ∧ differing_positions d W = 1)) ∧
    suggest_corrections
        (load_dictionary create_trienode
          [[99, 97, 116], [98, 97, 116], [99, 111, 116], [99, 97, 112]]) [98, 111, 116]
      = some [[99, 111, 116], [98, 97, 116]] := by
  refine ⟨⟨_, suggest_corrections_eq _ W hlen, ?_⟩, by decide⟩
  intro d
  rw [mem_reference_suggestions]
  constructor
  · rintro ⟨i, _, k, hk, rfl, hs, hne⟩
    have hlow : lowercase_only (W.set i (97 + (k : Int))) = true :=
      lowercase_only_set W i _ hW (by omega) (by omega)
    obtain ⟨w, hwD, hpath⟩ := (search_load_create D _).1 hs
    have heq := letter_path_lower_inj _ _ hlow (hD w hwD) hpath
    refine ⟨by rw [heq]; exact hwD, by simp, differing_positions_set W i _ hne⟩
  · rintro ⟨hdD, hl, hdiff⟩
    obtain ⟨i, hi, c, hc, hset, hne⟩ := differing_positions_one d W hl hdiff
    have hlow := hD d hdD
    simp only [lowercase_only, List.all_eq_true, Bool.and_eq_true, decide_eq_true_eq] at hlow
    obtain ⟨h1, h2⟩ := hlow c hc
    refine ⟨i, hi, (c - 97).toNat, by omega, ?_, ?_, hne⟩
    · rw [hset]; congr 1; omega
    · exact (search_load_create D d).2 ⟨d, hdD, rfl⟩

/-- C2, at the dictionary "cat", "bat", "cot", "cap" and the query "bot". -/
theorem suggestions_of_lowercase_dictionary_witness :
    (∀ d ∈ [[99, 97, 116], [98, 97, 116], [99, 111, 116], [99, 97, 112]],
      lowercase_only d = true) ∧
    lowercase_only [98, 111, 116] = true ∧ [98, 111, 116].length ≤ 44 ∧
    ∃ out, suggest_corrections
        (load_dictionary create_trienode
          [[99, 97, 116], [98, 97, 116], [99, 111, 116], [99, 97, 112]]) [98, 111, 116]
          = some out ∧
      ∀ d : Word, d ∈ out ↔
        (d ∈ [[99, 97, 116], [98, 97, 116], [99, 111, 116], [99, 97, 112]] ∧
          d.length = [98, 111, 116].length ∧ differing_positions d [98, 111, 116] = 1) :=
  ⟨by decide, by decide, by decide,
    (suggestions_of_lowercase_dictionary
      [[99, 97, 116], [98, 97, 116], [99, 111, 116], [99, 97, 112]] [98, 111, 116]
      (by decide) (by decide) (by decide)).1⟩

/-- C3: for every trie and every word `W` of at most 44 bytes, the candidates
`suggest_corrections` emits are, in order, the reference list: positions ascending,
within a position the letters a to z ascending, the candidate being `W` with that
position replaced, kept exactly when `search_in_trie` finds it and it is not equal
to `W`. -/
theorem suggest_corrections_is_reference (root : TrieNode) (W : Word) (h : W.length ≤ 44) :
    suggest_corrections root W = some (reference_suggestions root W) :=
  suggest_corrections_eq root W h

/-- C3, at the trie holding "cat", "bat", "cot", "cap" and the word "bot". -/
theorem suggest_corrections_is_reference_witness :
    [98, 111, 116].length ≤ 44 ∧
    suggest_corrections
        (load_dictionary create_trienode
          [[99, 97, 116], [98, 97, 116], [99, 111, 116], [99, 97, 112]]) [98, 111, 116]
      = some (reference_suggestions
        (load_dictionary create_trienode
          [[99, 97, 116], [98, 97, 116], [99, 111, 116], [99, 97, 112]]) [98, 111, 116]) :=
  ⟨by decide, suggest_corrections_is_reference _ _ (by decide)⟩

/-- C4: for every trie and every word `W` of at most 44 bytes, `suggest_corrections`
returns, and every candidate `C` it emits has the length of `W`, differs from `W`
in exactly one position, and is found by `search_in_trie`. -/
theorem suggestion_differs_in_one_position (root : TrieNode) (W : Word) (h : W.length ≤ 44) :
    ∃ out, suggest_corrections root W = some out ∧
      ∀ C ∈ out, C.length = W.length ∧ differing_positions C W = 1 ∧
        search_in_trie root C = true := by
  refine ⟨_, suggest_corrections_eq root W h, ?_⟩
  intro C hC
  obtain ⟨i, _, k, _, rfl, hs, hne⟩ := (mem_reference_suggestions root W C).1 hC
  exact ⟨by simp, differing_positions_set W i _ hne, hs⟩

/-- C4, at the trie holding "cat" and "cot" and the word "cat". -/
theorem suggestion_differs_in_one_position_witness :
    [99, 97, 116].length ≤ 44 ∧
    ∃ out, suggest_corrections
        (load_dictionary create_trienode [[99, 97, 116], [99, 111, 116]]) [99, 97, 116]
          = some out ∧
      ∀ C ∈ out, C.length = [99, 97, 116].length ∧ differing_positions C [99, 97, 116] = 1 ∧
        search_in_trie
          (load_dictionary create_trienode [[99, 97, 116], [99, 111, 116]]) C = true :=
  ⟨by decide, suggestion_differs_in_one_position _ _ (by decide)⟩

/-- C5: for every trie and every word `W` of at most 44 bytes, `suggest_corrections`
returns and `W` is not among the candidates it emits, also when the trie
contains `W`. -/
theorem suggestion_never_the_word (root : TrieNode) (W : Word) (h : W.length ≤ 44) :
    ∃ out, suggest_corrections root W = some out ∧ W ∉ out := by
  refine ⟨_, suggest_corrections_eq root W h, ?_⟩
  intro hW
  obtain ⟨_, _, _, _, _, _, hne⟩ := (mem_reference_suggestions root W W).1 hW
  exact hne rfl

/-- C5, at the trie holding "cat" and "cot" and the word "cat", which the trie
contains. -/
theorem suggestion_never_the_word_witness :
    [99, 97, 116].length ≤ 44 ∧
    search_in_trie
      (load_dictionary create_trienode [[99, 97, 116], [99, 111, 116]]) [99, 97, 116] = true ∧
    ∃ out, suggest_corrections
        (load_dictionary create_trienode [[99, 97, 116], [99, 111, 116]]) [99, 97, 116]
          = some out ∧ [99, 97, 116] ∉ out :=
  ⟨by decide, by decide, suggestion_never_the_word _ _ (by decide)⟩

/-! ## The queue claims -/

/-- C10: FIFO order without deduplication: enqueuing the words of `ws` (each of at
most 44 bytes, repeats allowed) in order into the empty queue succeeds; dequeuing
`length ws` times then returns exactly the words of `ws` in the same order, and one
more `dequeue` returns `NULL`. -/
theorem queue_is_fifo (ws : List Word) (h : ∀ w ∈ ws, w.length ≤ 44) :
    ∃ q q1, enqueue_all empty_queue ws = some q ∧
      dequeue_times q ws.length = some (ws.map some, q1) ∧
      dequeue q1 = some (none, q1) := by
  obtain ⟨q, he, hq⟩ := holds_enqueue_all ws empty_queue [] holds_empty h
  rw [List.nil_append] at hq
  obtain ⟨q1, hd, hq1⟩ := holds_dequeue_times ws q [] (by simpa using hq)
  exact ⟨q, q1, he, hd, holds_dequeue_nil q1 hq1⟩

/-- C10, at the words "cat", "dog", "bird": they come back in that order and the
fourth `dequeue` returns `NULL`. -/
theorem queue_is_fifo_witness :
    (∀ w ∈ [[99, 97, 116], [100, 111, 103], [98, 105, 114, 100]], List.length w ≤ 44) ∧
    ∃ q q1, enqueue_all empty_queue [[99, 97, 116], [100, 111, 103], [98, 105, 114, 100]]
        = some q ∧
      dequeue_times q 3
        = some ([some [99, 97, 116], some [100, 111, 103], some [98, 105, 114, 100]], q1) ∧
      dequeue q1 = some (none, q1) :=
  ⟨by decide, queue_is_fifo [[99, 97, 116], [100, 111, 103], [98, 105, 114, 100]] (by decide)⟩

/-! ## Helper lemmas: distinct candidates, normal forms, insertion order -/

theorem set_value_inj (w : Word) (i : Nat) (c d : Int) (hi : i < w.length)
    (h : w.set i c = w.set i d) : c = d := by
  induction w generalizing i with
  | nil => simp at hi
  | cons a w ih =>
    cases i with
    | zero => simpa using h
    | succ j =>
      simp only [List.set_cons_succ, List.cons.injEq, true_and] at h
      exact ih j (by simpa using hi) h

theorem set_at_two_positions (w : Word) (i j : Nat) (c d : Int) (hij : i ≠ j)
    (h : w.set i c = w.set j d) : w.set i c = w := by
  induction w generalizing i j with
  | nil => rfl
  | cons a w ih =>
    cases i with
    | zero =>
      cases j with
      | zero => exact absurd rfl hij
      | succ j =>
        simp only [List.set_cons_zero, List.set_cons_succ, List.cons.injEq] at h
        simp [h.1]
    | succ i =>
      cases j with
      | zero =>
        simp only [List.set_cons_zero, List.set_cons_succ, List.cons.injEq] at h
        simp [h.2]
      | succ j =>
        simp only [List.set_cons_succ, List.cons.injEq, true_and] at h
        simp [ih i j (fun e => hij (by rw [e])) h]

theorem reference_suggestions_nodup (root : TrieNode) (w : Word) :
    (reference_suggestions root w).Nodup := by
  unfold reference_suggestions
  rw [List.nodup_flatMap]
  constructor
  · intro i hi
    rw [List.mem_range] at hi
    apply List.Nodup.filter
    apply List.Nodup.map_on _ (List.nodup_range 26)
    intro x _ y _ hxy
    have := set_value_inj w i _ _ hi hxy
    omega
  · refine (List.pairwise_lt_range w.length).imp ?_
    intro i j hij
    show List.Disjoint _ _
    intro d hdi hdj
    simp only [List.mem_filter, List.mem_map, List.mem_range, Bool.and_eq_true,
      decide_eq_true_eq] at hdi hdj
    obtain ⟨⟨k, _, rfl⟩, _, hne⟩ := hdi
    obtain ⟨⟨m, _, hm⟩, _⟩ := hdj
    exact hne (set_at_two_positions w i j _ _ (by omega) hm.symm)

theorem reference_suggestions_length (root : TrieNode) (w : Word) :
    (reference_suggestions root w).length ≤ 26 * w.length := by
  unfold reference_suggestions
  have h : ∀ l : List Nat, (l.flatMap fun i =>
      ((List.range 26).map fun (k : Nat) => w.set i (97 + (k : Int))).filter
        fun cand => search_in_trie root cand && decide (cand ≠ w)).length ≤ 26 * l.length := by
    intro l
    induction l with
    | nil => simp
    | cons i l ih =>
      simp only [List.flatMap_cons, List.length_append, List.length_cons]
      have h1 := List.length_filter_le
        (fun cand => search_in_trie root cand && decide (cand ≠ w))
        ((List.range 26).map fun (k : Nat) => w.set i (97 + (k : Int)))
      simp only [List.length_map, List.length_range] at h1
      omega
  have := h (List.range w.length)
  rw [List.length_range] at this
  exact this

theorem child_slot_of_letter (c : Int) (h : is_letter c = true) :
    ∃ i : Fin 26, child_slot c = some i ∧ letter_of i = tolower c := by
  simp only [is_letter, Bool.or_eq_true, Bool.and_eq_true, decide_eq_true_eq] at h
  have hc : ¬ (char_index c < 0 ∨ char_index c ≥ 26) := by
    unfold char_index tolower
    split_ifs <;> omega
  refine ⟨⟨(char_index c).toNat, by omega⟩, by simp [child_slot, hc], ?_⟩
  have h2 : char_index c = tolower c - 97 := rfl
  simp only [letter_of]
  omega

theorem normalise_eq_map (w : Word) : normalise w = (letter_path w).map letter_of := by
  induction w with
  | nil => rfl
  | cons c w ih =>
    simp only [normalise, letter_path] at ih
    cases hl : is_letter c with
    | true =>
      obtain ⟨i, hi, hlet⟩ := child_slot_of_letter c hl
      simp only [normalise, letter_path, List.filter_cons, hl, if_true, List.map_cons,
        List.filterMap_cons, hi, hlet, ih]
    | false =>
      simp only [normalise, letter_path, List.filter_cons, hl, List.filterMap_cons,
        child_slot_of_not_letter c hl]
      simpa using ih

theorem letter_path_normalise (w : Word) : letter_path (normalise w) = letter_path w := by
  unfold normalise
  rw [letter_path_map_tolower, letter_path_filter]

theorem letter_path_eq_iff (a b : Word) :
    letter_path a = letter_path b ↔ normalise a = normalise b := by
  constructor
  · intro h
    rw [normalise_eq_map, normalise_eq_map, h]
  · intro h
    rw [← letter_path_normalise a, ← letter_path_normalise b, h]

theorem letter_path_eq_nil_iff (w : Word) :
    letter_path w = [] ↔ w.filter is_letter = [] := by
  constructor
  · intro h
    have := normalise_eq_map w
    rw [h] at this
    simpa [normalise] using this
  · intro h
    rw [← letter_path_filter, h]
    rfl

theorem insert_path_comm (t : TrieNode) (p q : List (Fin 26)) :
    insert_path (insert_path t p) q = insert_path (insert_path t q) p := by
  induction p generalizing t q with
  | nil =>
    cases q with
    | nil => rfl
    | cons j q => simp [insert_path, children_mk, is_end_mk]
  | cons i p ih =>
    cases q with
    | nil => simp [insert_path, children_mk, is_end_mk]
    | cons j q =>
      simp only [insert_path, children_mk, is_end_mk, TrieNode.mk.injEq, and_true]
      funext k
      by_cases hij : i = j
      · subst hij
        by_cases hk : k = i
        · subst hk
          simp only [set_child_same, Option.some.injEq]
          exact ih _ q
        · simp only [set_child_other _ _ _ _ hk]
      · have hji : j ≠ i := fun e => hij e.symm
        by_cases hki : k = i
        · subst hki
          simp only [set_child_same, set_child_other _ _ _ _ hij]
        · by_cases hkj : k = j
          · subst hkj
            simp only [set_child_same, set_child_other _ _ _ _ hji]
          · simp only [set_child_other _ _ _ _ hki, set_child_other _ _ _ _ hkj]

theorem suggest_corrections_some (root : TrieNode) (w : Word) (out : List Word)
    (h : suggest_corrections root w = some out) :
    w.length ≤ 44 ∧ out = reference_suggestions root w := by
  by_cases hl : w.length ≤ 44
  · rw [suggest_corrections_eq root w hl] at h
    exact ⟨hl, (Option.some.inj h).symm⟩
  · have hge : w.length ≥ MAX_WORD_LENGTH := by
      unfold MAX_WORD_LENGTH; omega
    simp [suggest_corrections, hge] at h

/-! ## Further claims on the suggestion engine -/

/-- C11, as stated, fails: there is no trie and no word for which
`suggest_corrections` emits some candidate more than once. -/
theorem no_duplicate_suggestion_exists :
    ¬ ∃ (root : TrieNode) (W : Word) (out : List Word),
      suggest_corrections root W = some out ∧ ¬ out.Nodup := by
  rintro ⟨root, W, out, h, hdup⟩
  obtain ⟨_, rfl⟩ := suggest_corrections_some root W out h
  exact hdup (reference_suggestions_nodup root W)

/-- C11, amended: for every trie and every word `W` of at most 44 bytes,
`suggest_corrections` returns and the candidates it emits are pairwise distinct: a
candidate differs from `W` at the substituted position only, so no two positions
yield the same candidate. -/
theorem suggestions_are_distinct (root : TrieNode) (W : Word) (h : W.length ≤ 44) :
    ∃ out, suggest_corrections root W = some out ∧ out.Nodup :=
  ⟨_, suggest_corrections_eq root W h, reference_suggestions_nodup root W⟩

/-- C11, amended, at the trie holding "aa", "ab", "ba" and the word "bb": the two
candidates "ab" and "ba" come from different positions and are different words. -/
theorem suggestions_are_distinct_witness :
    [98, 98].length ≤ 44 ∧
    suggest_corrections (load_dictionary create_trienode [[97, 97], [97, 98], [98, 97]])
      [98, 98] = some [[97, 98], [98, 97]] ∧
    ∃ out, suggest_corrections
        (load_dictionary create_trienode [[97, 97], [97, 98], [98, 97]]) [98, 98] = some out ∧
      out.Nodup :=
  ⟨by decide, by decide, suggestions_are_distinct _ _ (by decide)⟩

/-- C18: the number of suggestions is not capped by `SUGGESTION_LIMIT`: for the trie
holding "a" to "f" and the word "z" six candidates are emitted; the bound that
does hold for every trie and word is 26 candidates per position. -/
theorem suggestions_exceed_limit :
    (∃ (root : TrieNode) (W : Word) (out : List Word),
      suggest_corrections root W = some out ∧ SUGGESTION_LIMIT < out.length) ∧
    (∀ (root : TrieNode) (W : Word) (out : List Word),
      suggest_corrections root W = some out → out.length ≤ 26 * W.length) := by
  constructor
  · refine ⟨load_dictionary create_trienode [[97], [98], [99], [100], [101], [102]], [122],
      [[97], [98], [99], [100], [101], [102]], by decide, by decide⟩
  · intro root W out h
    obtain ⟨_, rfl⟩ := suggest_corrections_some root W out h
    exact reference_suggestions_length root W

/-! ## Further claims on the trie -/

/-- C12, as stated, fails: after the single non-empty word "1" is inserted into
the trie of `create_trienode`, the root's flag is set and the empty word is found. -/
theorem root_flag_set_by_digit_word :
    ([49] : Word) ≠ [] ∧
    (load_dictionary create_trienode [[49]]).is_end_of_word = true ∧
    search_in_trie (load_dictionary create_trienode [[49]]) [] = true := by
  decide

/-- C12, amended: in a trie obtained from `create_trienode` by inserting the words
`ws`, the root's flag is true only if one of the inserted words contains no ASCII
letter; so the empty word is not found whenever every inserted word contains a
letter. -/
theorem root_flag_only_from_letterless_word (ws : List Word) :
    ((load_dictionary create_trienode ws).is_end_of_word = true →
      ∃ w ∈ ws, w.filter is_letter = []) ∧
    ((∀ w ∈ ws, w.filter is_letter ≠ []) →
      search_in_trie (load_dictionary create_trienode ws) [] = false) := by
  have key : search_in_trie (load_dictionary create_trienode ws) [] = true →
      ∃ w ∈ ws, w.filter is_letter = [] := by
    intro h
    obtain ⟨w, hw, hp⟩ := (search_load_create ws []).1 h
    exact ⟨w, hw, (letter_path_eq_nil_iff w).1 hp.symm⟩
  refine ⟨key, fun hall => ?_⟩
  cases hs : search_in_trie (load_dictionary create_trienode ws) [] with
  | false => rfl
  | true =>
    obtain ⟨w, hw, hnil⟩ := key hs
    exact absurd hnil (hall w hw)

/-- C12, amended, at the words "cat", "a1b" (every word has a letter: the empty
word is not found) and at "cat", "1" (the flag is set, and "1" has no letter). -/
theorem root_flag_only_from_letterless_word_witness :
    ((∀ w ∈ [[99, 97, 116], [97, 49, 98]], List.filter is_letter w ≠ []) ∧
      search_in_trie (load_dictionary create_trienode [[99, 97, 116], [97, 49, 98]]) []
        = false) ∧
    ((load_dictionary create_trienode [[99, 97, 116], [49]]).is_end_of_word = true ∧
      ∃ w ∈ [[99, 97, 116], [49]], List.filter is_letter w = []) :=
  ⟨⟨by decide, (root_flag_only_from_letterless_word _).2 (by decide)⟩,
    ⟨by decide, (root_flag_only_from_letterless_word _).1 (by decide)⟩⟩

/-- C15, as stated, fails in its closing clause: "ab" is a proper prefix of "ab1"
and is not found in the empty trie, yet it is found once "ab1" is inserted; and
"ab1" is an extension of "ab" that is found once "ab" is inserted. -/
theorem raw_proper_prefix_found_after_insert :
    (([97, 98] : Word) ++ [49] = [97, 98, 49] ∧ ([97, 98] : Word) ≠ [97, 98, 49]) ∧
    (search_in_trie create_trienode [97, 98] = false ∧
      search_in_trie (insert_word_in_trie create_trienode [97, 98, 49]) [97, 98] = true) ∧
    (search_in_trie create_trienode [97, 98, 49] = false ∧
      search_in_trie (insert_word_in_trie create_trienode [97, 98]) [97, 98, 49] = true) := by
  decide

/-- C15, amended: insertion adds exactly one normalised word: after `W` is inserted
into a trie `T`, a query `Q` is found if and only if it was found before or `Q` and
`W` have the same normalised form; a query with another normalised form gets the
answer it got before, in particular a query whose normalised form is a proper
prefix or a proper extension of the normalised form of `W`. -/
theorem search_after_insert_iff (T : TrieNode) (W Q : Word) :
    (search_in_trie (insert_word_in_trie T W) Q = true ↔
      (search_in_trie T Q = true ∨ normalise Q = normalise W)) ∧
    (normalise Q ≠ normalise W →
      search_in_trie (insert_word_in_trie T W) Q = search_in_trie T Q) ∧
    (∀ t : Word, t ≠ [] →
      (normalise Q ++ t = normalise W ∨ normalise W ++ t = normalise Q) →
      search_in_trie (insert_word_in_trie T W) Q = search_in_trie T Q) := by
  have h2 : normalise Q ≠ normalise W →
      search_in_trie (insert_word_in_trie T W) Q = search_in_trie T Q := by
    intro hne
    have : ¬ letter_path Q = letter_path W := fun e => hne ((letter_path_eq_iff Q W).1 e)
    rw [search_insert]
    simp [this]
  refine ⟨?_, h2, ?_⟩
  · rw [search_insert, Bool.or_eq_true, decide_eq_true_eq, letter_path_eq_iff]
  · intro t ht hpre
    apply h2
    intro heq
    have hlen : t.length = 0 := by
      rcases hpre with h | h
      · have := congrArg List.length h
        rw [List.length_append, heq] at this
        omega
      · have := congrArg List.length h
        rw [List.length_append, heq] at this
        omega
    exact ht (List.length_eq_zero.1 hlen)

/-- C15, amended, at the word "cat" inserted into the empty trie: its prefix "ca"
and its extension "cats" are not found, "C-a-t" is. -/
theorem search_after_insert_iff_witness :
    (normalise [99, 97] ++ [116] = normalise [99, 97, 116] ∧
      search_in_trie (insert_word_in_trie create_trienode [99, 97, 116]) [99, 97] = false) ∧
    (normalise [99, 97, 116, 115] ≠ normalise [99, 97, 116] ∧
      normalise [99, 97, 116] ++ [115] = normalise [99, 97, 116, 115] ∧
      search_in_trie (insert_word_in_trie create_trienode [99, 97, 116]) [99, 97, 116, 115]
        = false) ∧
    (normalise [67, 45, 97, 45, 116] = normalise [99, 97, 116] ∧
      search_in_trie (insert_word_in_trie create_trienode [99, 97, 116]) [67, 45, 97, 45, 116]
        = true) :=
  ⟨⟨by decide, ((search_after_insert_iff create_trienode [99, 97, 116] [99, 97]).2.2
      [116] (by decide) (Or.inl (by decide))).trans (by decide)⟩,
    ⟨by decide, by decide,
      ((search_after_insert_iff create_trienode [99, 97, 116] [99, 97, 116, 115]).2.1
        (by decide)).trans (by decide)⟩,
    ⟨by decide, (search_after_insert_iff create_trienode [99, 97, 116] [67, 45, 97, 45, 116]).1.2
      (Or.inr (by decide))⟩⟩

/-- C16: insertion order does not matter: inserting `A` then `B` gives the same
trie as inserting `B` then `A`, hence the same answer to every query. -/
theorem insert_order_irrelevant (T : TrieNode) (A B : Word) :
    insert_word_in_trie (insert_word_in_trie T A) B
      = insert_word_in_trie (insert_word_in_trie T B) A ∧
    ∀ Q : Word, search_in_trie (insert_word_in_trie (insert_word_in_trie T A) B) Q
      = search_in_trie (insert_word_in_trie (insert_word_in_trie T B) A) Q := by
  have h : insert_word_in_trie (insert_word_in_trie T A) B
      = insert_word_in_trie (insert_word_in_trie T B) A := by
    simp only [insert_eq_insert_path]
    exact insert_path_comm T _ _
  exact ⟨h, fun Q => by rw [h]⟩

/-- C20: in `insert_word_in_trie` and `search_in_trie` a byte `c` selects a branch
exactly when it is an ASCII letter; the index used is then `tolower(c) - 'a'` and
lies in 0..25; an uppercase letter selects the branch of its lowercase form; any
other byte is skipped and the traversal continues from the same node. -/
theorem children_index_in_bounds (c : Int) :
    ((child_slot c).isSome = is_letter c) ∧
    (∀ i : Fin 26, child_slot c = some i →
      (i.val : Int) = char_index c ∧ 0 ≤ char_index c ∧ char_index c < 26) ∧
    (65 ≤ c ∧ c ≤ 90 → child_slot (c + 32) = child_slot c) ∧
    (is_letter c = false → ∀ (T : TrieNode) (w : Word),
      insert_word_in_trie T (c :: w) = insert_word_in_trie T w ∧
      search_in_trie T (c :: w) = search_in_trie T w) := by
  refine ⟨?_, ?_, ?_, ?_⟩
  · cases hl : is_letter c with
    | true =>
      obtain ⟨i, hi, _⟩ := child_slot_of_letter c hl
      rw [hi]; rfl
    | false => rw [child_slot_of_not_letter c hl]; rfl
  · intro i hi
    unfold child_slot at hi
    split_ifs at hi with hc
    have hi2 := Option.some.inj hi
    have hv : i.val = (char_index c).toNat := by rw [← hi2]
    omega
  · rintro ⟨h1, h2⟩
    have ht : tolower c = c + 32 := by simp [tolower, h1, h2]
    rw [← ht, child_slot_tolower]
  · intro hl T w
    have hn := child_slot_of_not_letter c hl
    exact ⟨by simp only [insert_word_in_trie, hn], by simp only [search_in_trie, hn]⟩

/-- C20, at the bytes 'A' (branch 0, the branch of 'a'), 'z' (branch 25) and '1'
(skipped). -/
theorem children_index_in_bounds_witness :
    (child_slot 65 = some 0 ∧ child_slot (65 + 32) = child_slot 65) ∧
    (child_slot 122 = some 25 ∧ ((25 : Fin 26).val : Int) = char_index 122) ∧
    (is_letter 49 = false ∧
      search_in_trie (insert_word_in_trie create_trienode [97]) (49 :: [97])
        = search_in_trie (insert_word_in_trie create_trienode [97]) [97]) :=
  ⟨⟨by decide, (children_index_in_bounds 65).2.2.1 ⟨by decide, by decide⟩⟩,
    ⟨by decide, ((children_index_in_bounds 122).2.1 25 (by decide)).1⟩,
    ⟨by decide, ((children_index_in_bounds 49).2.2.2 (by decide) _ _).2⟩⟩

/-! ## The queue under interleaved operations -/

theorem holds_front_rear (q : QueueState) (ws : List Word) (hq : Holds q ws) :
    (q.front = none ↔ q.rear = none) ∧ (q.front = none ↔ ws = []) := by
  obtain ⟨as, _, hl, hfront, hrear⟩ := hq
  cases as with
  | nil =>
    cases ws with
    | nil => simp [hfront, hrear]
    | cons w ws => exact hl.elim
  | cons x xs =>
    cases ws with
    | nil => exact hl.elim
    | cons w ws =>
      have hr : (x :: xs).getLast? ≠ none := by
        rw [List.getLast?_eq_getLast _ (by simp)]; simp
      simp [hfront, hrear, hr]

theorem holds_run_ops (ops : List QueueOp) (q : QueueState) (l : List Word) (hq : Holds q l)
    (hw : ∀ w ∈ enqueued_words ops, w.length ≤ 44) :
    ∃ q1, run_ops q ops = some ((fifo_run l ops).1, q1) ∧ Holds q1 (fifo_run l ops).2 := by
  induction ops generalizing q l with
  | nil => exact ⟨q, rfl, hq⟩
  | cons op ops ih =>
    cases op with
    | enq w =>
      obtain ⟨q1, he, hq1⟩ := holds_enqueue q l w hq (hw w (by simp [enqueued_words]))
      obtain ⟨q2, hr, hq2⟩ := ih q1 (l ++ [w]) hq1
        (fun v hv => hw v (by simp [enqueued_words, hv]))
      exact ⟨q2, by simp only [run_ops, he, hr, fifo_run], by simpa only [fifo_run] using hq2⟩
    | deq =>
      have hw1 : ∀ w ∈ enqueued_words ops, w.length ≤ 44 :=
        fun v hv => hw v (by simpa [enqueued_words] using hv)
      cases l with
      | nil =>
        have hd := holds_dequeue_nil q hq
        obtain ⟨q2, hr, hq2⟩ := ih q [] hq hw1
        exact ⟨q2, by simp only [run_ops, hd, hr, fifo_run], by simpa only [fifo_run] using hq2⟩
      | cons w l =>
        obtain ⟨q1, hd, hq1⟩ := holds_dequeue_cons q w l hq
        obtain ⟨q2, hr, hq2⟩ := ih q1 l hq1 hw1
        exact ⟨q2, by simp only [run_ops, hd, hr, fifo_run], by simpa only [fifo_run] using hq2⟩

/-- C17: the linked queue refines the list FIFO under any interleaving: for every
sequence of operations on the empty queue (enqueued words of at most 44 bytes) the
run succeeds, each `dequeue` returns what the list model returns, the queue then
holds the words the list model holds, `front` is `NULL` exactly when `rear` is and
exactly when the model is empty, and a `dequeue` on the drained queue returns
`NULL` and leaves it as it is. Every prefix of a run is a run, so this holds after
every operation. -/
theorem linked_queue_refines_fifo (ops : List QueueOp)
    (h : ∀ w ∈ enqueued_words ops, w.length ≤ 44) :
    ∃ q, run_ops empty_queue ops = some ((fifo_run [] ops).1, q) ∧
      Holds q (fifo_run [] ops).2 ∧
      (q.front = none ↔ q.rear = none) ∧
      (q.front = none ↔ (fifo_run [] ops).2 = []) ∧
      ((fifo_run [] ops).2 = [] → dequeue q = some (none, q)) := by
  obtain ⟨q, hr, hq⟩ := holds_run_ops ops empty_queue [] holds_empty h
  obtain ⟨h1, h2⟩ := holds_front_rear q _ hq
  refine ⟨q, hr, hq, h1, h2, fun hnil => ?_⟩
  rw [hnil] at hq
  exact holds_dequeue_nil q hq

/-- C17, at the run: enqueue "cat", dequeue, dequeue (empty), enqueue "dog",
enqueue "cat", dequeue: the drained queue is used again and behaves as a new one. -/
theorem linked_queue_refines_fifo_witness :
    (∀ w ∈ enqueued_words
        [QueueOp.enq [99, 97, 116], QueueOp.deq, QueueOp.deq, QueueOp.enq [100, 111, 103],
          QueueOp.enq [99, 97, 116], QueueOp.deq], List.length w ≤ 44) ∧
    fifo_run []
        [QueueOp.enq [99, 97, 116], QueueOp.deq, QueueOp.deq, QueueOp.enq [100, 111, 103],
          QueueOp.enq [99, 97, 116], QueueOp.deq]
      = ([some [99, 97, 116], none, some [100, 111, 103]], [[99, 97, 116]]) ∧
    ∃ q, run_ops empty_queue
        [QueueOp.enq [99, 97, 116], QueueOp.deq, QueueOp.deq, QueueOp.enq [100, 111, 103],
          QueueOp.enq [99, 97, 116], QueueOp.deq]
        = some ([some [99, 97, 116], none, some [100, 111, 103]], q) ∧
      (q.front = none ↔ q.rear = none) :=
  ⟨by decide, by decide,
    (linked_queue_refines_fifo
      [QueueOp.enq [99, 97, 116], QueueOp.deq, QueueOp.deq, QueueOp.enq [100, 111, 103],
        QueueOp.enq [99, 97, 116], QueueOp.deq] (by decide)).imp
      fun _ hq => ⟨hq.1, hq.2.2.1⟩⟩

/-! ## The sentence claims -/

/-- C13, at a failing input: the trie holds only "a" and the sentence is "a" twenty
times followed by "zz". The sentence has 21 words, "zz" is a word of it that
`search_in_trie` does not find, and yet `check_sentence` calls
`check_basic_grammar` and reports the sentence as correct: its loop stops after
20 words, so "zz" is never looked up and `word_count > 20` never holds. -/
theorem grammar_called_despite_unknown_word :
    twenty_one_words.length ≤ 255 ∧
    (strtok_words twenty_one_words).length = 21 ∧
    [122, 122] ∈ strtok_words twenty_one_words ∧
    search_in_trie (insert_word_in_trie create_trienode [97]) [122, 122] = false ∧
    check_sentence (insert_word_in_trie create_trienode [97]) twenty_one_words
      = some { output := [Message.start_with_capital, Message.end_with_period,
                 Message.sentence_correct],
               grammar_argument := some [97] } := by
  decide

/-- C14, at a failing input: the trie holds "cat" and "dog" and the sentence is
"Cat dog.". Both words are found and the last word "dog." ends with a period, yet
`check_sentence` prints the period message: `strtok` has cut the buffer after the
first word, so `check_basic_grammar` is handed "Cat" alone and tests its end. -/
theorem period_check_sees_first_word :
    strtok_words [67, 97, 116, 32, 100, 111, 103, 46] = [[67, 97, 116], [100, 111, 103, 46]] ∧
    search_in_trie (load_dictionary create_trienode [[99, 97, 116], [100, 111, 103]])
      [67, 97, 116] = true ∧
    search_in_trie (load_dictionary create_trienode [[99, 97, 116], [100, 111, 103]])
      [100, 111, 103, 46] = true ∧
    ([100, 111, 103, 46] : Word).getLast? = some 46 ∧
    check_sentence (load_dictionary create_trienode [[99, 97, 116], [100, 111, 103]])
        [67, 97, 116, 32, 100, 111, 103, 46]
      = some { output := [Message.end_with_period, Message.sentence_correct],
               grammar_argument := some [67, 97, 116] } := by
  decide

/-- C19, at the failing inputs: for the empty sentence and for a sentence of three
spaces, in every trie, no word is appended, `corrected_sentence` is empty when the
trailing space is removed, and `strlen(corrected_sentence) - 1` is `SIZE_MAX`,
outside the 500-byte buffer. -/
theorem trailing_index_out_of_bounds (root : TrieNode) :
    (corrected_before_trim root [] = some [] ∧
      trailing_space_index root [] = some SIZE_MAX ∧
      correct_sentence root [] = none) ∧
    (corrected_before_trim root [32, 32, 32] = some [] ∧
      trailing_space_index root [32, 32, 32] = some SIZE_MAX ∧
      correct_sentence root [32, 32, 32] = none) ∧
    ¬ SIZE_MAX < 500 := by
  refine ⟨⟨rfl, rfl, rfl⟩, ⟨rfl, rfl, rfl⟩, by decide⟩

end SpellChecker
